import Mathlib

/-!
Verification of the dynamic-inventory script (`src/code.py`).

The script pulls host records from a CMDB, filters them (`ignore_host`),
validates hostnames by DNS resolution (`resolve_dns`), groups the survivors
by their patch group (`distribute_hosts`) and assembles an Ansible-style
inventory document (`build_ansible_inventory`).

Embedding conventions:
* A raw host record (a JSON object) is modelled by the two fields the
  pipeline reads: `name` and `u_patching_group`; `rec.get(k)` returning
  `None` for a missing key is modelled by `Option`.  Passthrough attributes
  are never read by the code, so they are omitted.
* Python dictionaries (`groups`, `inventory`) are modelled as association
  lists in insertion order, which is how Python dicts iterate and how
  `json.dump` serialises them.
* `socket.gethostbyname` is an external effect, modelled by an oracle
  `dns : String → Option String`: `some ip` for a successful lookup,
  `none` when the call raises.
* `d[k]` on a dict (which raises `KeyError` on a missing key) is modelled
  with `Option`: `distribute_hosts` returns `none` where Python would
  propagate the exception.
* `str.lower()` is character-wise lowercasing (`py_lower`), and
  `"." in s` is `py_contains_dot`.
-/

/-- A raw host record, restricted to the fields the pipeline reads.
`none` models a missing key, so `rec.get("name")` is `rec.name` and
`rec.get("name", "")` is `rec.name.getD ""`. -/
structure HostRecord where
  name : Option String
  u_patching_group : Option String
deriving DecidableEq, Repr

/-- Embedding of Python `str.lower()`: lowercase every character. -/
def py_lower (s : String) : String := ⟨s.data.map Char.toLower⟩

/-- Embedding of Python `"." in s`: membership of the separator character. -/
def py_contains_dot (s : String) : Bool := s.data.contains '.'

/-- `IGNORE_HOSTS = ["drhost01", "backup01"]` -/
def IGNORE_HOSTS : List String := ["drhost01", "backup01"]

/-- `IGNORE_GROUPS = ["unix_team", "do_not_patch"]` -/
def IGNORE_GROUPS : List String := ["unix_team", "do_not_patch"]

/-- `ignore_host(host)`: ignore when the lowered name is in `IGNORE_HOSTS`,
or the lowered group is in `IGNORE_GROUPS`, or the lowered group is falsy
(the empty string). -/
def ignore_host (host : HostRecord) : Bool :=
  let hname := py_lower (host.name.getD "")
  let group := py_lower (host.u_patching_group.getD "")
  IGNORE_HOSTS.contains hname || IGNORE_GROUPS.contains group || group == ""

/-- The default value of the `domain` parameter of `resolve_dns`. -/
def default_domain : String := "example.com"

/-- The result dict of `resolve_dns`: `{"hostname": ..., "ip": ..., "valid": ...}`.
`hostname` is an `Option` because `main` passes `rec.get("name")`, which can
be `None`. -/
structure ResolutionResult where
  hostname : Option String
  ip : Option String
  valid : Bool
deriving DecidableEq, Repr

/-- The hostname actually queried: `if "." not in hostname: hostname =
f"{hostname}.{domain}"`. -/
def qualify (domain : String) (hostname : String) : String :=
  if py_contains_dot hostname then hostname else hostname ++ "." ++ domain

/-- `resolve_dns(hostname, domain)`.  A `none` hostname makes
`"." not in hostname` raise `TypeError`, caught by the bare `except`,
which returns the still-unqualified `hostname` with `valid=False`; a
failing `socket.gethostbyname` (oracle result `none`) does the same with
the qualified name. -/
def resolve_dns (dns : String → Option String) (domain : String)
    (hostname : Option String) : ResolutionResult :=
  match hostname with
  | none => { hostname := none, ip := none, valid := false }
  | some h =>
    let h2 := qualify domain h
    match dns h2 with
    | some ip => { hostname := some h2, ip := some ip, valid := true }
    | none => { hostname := some h2, ip := none, valid := false }

/-- `groups.setdefault(group_name, []).append(name)`: append to the entry of
an existing key, otherwise add the key at the end with a one-element list
(Python dicts append new keys in insertion order). -/
def addToGroup (groups : List (String × List String)) (g : String)
    (n : String) : List (String × List String) :=
  match groups with
  | [] => [(g, [n])]
  | (k, v) :: rest =>
    if k == g then (k, v ++ [n]) :: rest else (k, v) :: addToGroup rest g n

/-- The loop of `distribute_hosts`, with the `groups` dict as accumulator.
`h["u_patching_group"]` and `h["name"]` raise `KeyError` on a missing key,
modelled by returning `none`. -/
def distribute_hosts_aux (acc : List (String × List String)) :
    List HostRecord → Option (List (String × List String))
  | [] => some acc
  | h :: rest =>
    match h.u_patching_group, h.name with
    | some g, some n => distribute_hosts_aux (addToGroup acc g n) rest
    | _, _ => none

/-- `distribute_hosts(all_hosts)`: group host names by patch group, keys in
first-occurrence order, names in input order. -/
def distribute_hosts (all_hosts : List HostRecord) :
    Option (List (String × List String)) :=
  distribute_hosts_aux [] all_hosts

/-- State of the `inventory` dict while `build_ansible_inventory` runs:
`allHosts` is the contents of the list object currently stored under the
`"all"` key, `entries` the other keys in insertion order. -/
structure InvState where
  allHosts : List String
  entries : List (String × List String)
deriving DecidableEq, Repr

/-- One iteration of the loop in `build_ansible_inventory`:
`inventory[group] = {"hosts": hosts}` then
`inventory["all"]["hosts"].extend(hosts)`.
When `group == "all"`, the assignment replaces the synthetic entry with a
dict holding the group's own list object (discarding what was accumulated
so far, and adding no new key since `"all"` is already present), and the
`extend` then extends that list with itself, doubling it.  Otherwise the
group is stored as a new key and its hosts are appended to the current
`"all"` list. -/
def build_step (st : InvState) (p : String × List String) : InvState :=
  if p.1 == "all" then
    { allHosts := p.2 ++ p.2, entries := st.entries }
  else
    { allHosts := st.allHosts ++ p.2, entries := st.entries ++ [p] }

/-- `build_ansible_inventory(distribution)`: start from
`{"all": {"hosts": []}}`, run the loop, and serialise in dict order (the
`"all"` key was inserted first and in-place reassignment keeps a key's
position, so it stays first). -/
def build_ansible_inventory (distribution : List (String × List String)) :
    List (String × List String) :=
  let st := distribution.foldl build_step { allHosts := [], entries := [] }
  ("all", st.allHosts) :: st.entries

/-- The filtering loop of `main`: drop a record when `ignore_host(rec)` or
when `resolve_dns(rec.get("name"))` reports `valid=False`; keep it
otherwise. -/
def keep_host (dns : String → Option String) (rec : HostRecord) : Bool :=
  !ignore_host rec && (resolve_dns dns default_domain rec.name).valid

/-- `filtered_hosts` as computed by the loop in `main`. -/
def pipeline_filter (dns : String → Option String) (raw : List HostRecord) :
    List HostRecord :=
  raw.filter (keep_host dns)

/-- The inventory document `main` prints for a given retrieved record list:
filter, group, assemble. -/
def main_inventory (dns : String → Option String) (raw : List HostRecord) :
    Option (List (String × List String)) :=
  (distribute_hosts (pipeline_filter dns raw)).map build_ansible_inventory

/-- Observable outcome of a run: exit status and the document written to
standard output, as a function of the retrieval collaborator's outcome
(`none` models a raised exception in `servicenow_query`, whose handler
prints to stderr and calls `sys.exit(1)` before any stdout output). -/
def main_run (queryResult : Option (List HostRecord))
    (dns : String → Option String) : Nat × Option (List (String × List String)) :=
  match queryResult with
  | none => (1, none)
  | some raw => (0, main_inventory dns raw)

/-- Lookup in an association list, i.e. `d[g]` as a total function. -/
def alookup (d : List (String × List String)) (g : String) :
    Option (List String) :=
  (d.find? (fun p => p.1 == g)).map (fun p => p.2)

/-- The names, in input order, of the records of group `g`. -/
def groupNames (l : List HostRecord) (g : String) : List String :=
  l.filterMap (fun h => if h.u_patching_group = some g then h.name else none)

/-- Number of named (non-`"all"`) groups of an inventory document whose host
list contains `hname`. -/
def namedGroupsContaining (inv : List (String × List String))
    (hname : String) : Nat :=
  (inv.filter (fun p => p.1 ≠ "all" ∧ hname ∈ p.2)).length

/-- Concatenation of the host lists of a distribution, in iteration order. -/
def concatHosts (l : List (String × List String)) : List String :=
  (l.map (fun p => p.2)).flatten

/-! ### Basic lemmas about the embedded helpers -/

theorem py_lower_eq_empty {s : String} : py_lower s = "" ↔ s = "" := by
  constructor
  · intro h
    obtain ⟨l⟩ := s
    have hd : List.map Char.toLower l = ([] : List Char) := congrArg String.data h
    have hl : l = [] := List.map_eq_nil_iff.mp hd
    subst hl
    rfl
  · intro h
    rw [h]
    rfl

theorem resolve_dns_none (dns : String → Option String) (domain : String) :
    resolve_dns dns domain none = { hostname := none, ip := none, valid := false } := rfl

theorem resolve_dns_some_valid (dns : String → Option String) (domain : String)
    (h : String) :
    (resolve_dns dns domain (some h)).valid = (dns (qualify domain h)).isSome := by
  simp only [resolve_dns]
  cases dns (qualify domain h) <;> rfl

theorem resolve_dns_some_ip (dns : String → Option String) (domain : String)
    (h : String) :
    (resolve_dns dns domain (some h)).ip = dns (qualify domain h) := by
  simp only [resolve_dns]
  cases dns (qualify domain h) <;> rfl

theorem resolve_dns_some_hostname (dns : String → Option String) (domain : String)
    (h : String) :
    (resolve_dns dns domain (some h)).hostname = some (qualify domain h) := by
  simp only [resolve_dns]
  cases dns (qualify domain h) <;> rfl

theorem ignore_host_group_none (name : Option String) :
    ignore_host ⟨name, none⟩ = true := by
  simp [ignore_host]
  exact Or.inr rfl

theorem ignore_host_group_empty (name : Option String) :
    ignore_host ⟨name, some ""⟩ = true := by
  simp [ignore_host]
  exact Or.inr rfl

/-- A record that survives the filtering loop has both fields present. -/
theorem keep_host_isSome (dns : String → Option String) (rec : HostRecord)
    (h : keep_host dns rec = true) :
    rec.name.isSome = true ∧ rec.u_patching_group.isSome = true := by
  obtain ⟨name, group⟩ := rec
  simp only [keep_host, Bool.and_eq_true, Bool.not_eq_true'] at h
  constructor
  · cases name with
    | none => simpa [resolve_dns] using h.2
    | some n => rfl
  · cases group with
    | none => simpa [ignore_host_group_none] using h.1
    | some g => rfl

/-! ### Lookup characterisation of the grouping loop -/

theorem alookup_nil (g : String) : alookup [] g = none := rfl

theorem alookup_addToGroup_self (acc : List (String × List String))
    (g : String) (n : String) :
    alookup (addToGroup acc g n) g = some ((alookup acc g).getD [] ++ [n]) := by
  induction acc with
  | nil => simp [alookup, addToGroup]
  | cons p rest ih =>
    obtain ⟨k, v⟩ := p
    by_cases hk : k = g
    · subst hk
      simp [alookup, addToGroup]
    · simp only [addToGroup, beq_iff_eq, if_neg hk]
      simpa [alookup, List.find?_cons, beq_iff_eq, hk] using ih

theorem alookup_addToGroup_ne (acc : List (String × List String))
    (g : String) (n : String) (g' : String) (hne : g' ≠ g) :
    alookup (addToGroup acc g n) g' = alookup acc g' := by
  have hgg' : (g == g') = false := beq_eq_false_iff_ne.mpr (Ne.symm hne)
  induction acc with
  | nil => simp [alookup, addToGroup, List.find?_cons, hgg']
  | cons p rest ih =>
    obtain ⟨k, v⟩ := p
    by_cases hk : k = g
    · subst hk
      simp [alookup, addToGroup, List.find?_cons, hgg']
    · simp only [addToGroup, beq_iff_eq, if_neg hk]
      by_cases hk' : k = g'
      · subst hk'
        simp [alookup, List.find?_cons]
      · have hkk' : (k == g') = false := beq_eq_false_iff_ne.mpr hk'
        simpa [alookup, List.find?_cons, hkk'] using ih

theorem groupNames_nil (g : String) : groupNames [] g = [] := rfl

theorem groupNames_cons_of_group (h : HostRecord) (l : List HostRecord)
    (g : String) (n : String) (hg : h.u_patching_group = some g)
    (hn : h.name = some n) :
    groupNames (h :: l) g = n :: groupNames l g := by
  simp [groupNames, List.filterMap_cons, hg, hn]

theorem groupNames_cons_of_ne (h : HostRecord) (l : List HostRecord)
    (g : String) (hg : h.u_patching_group ≠ some g) :
    groupNames (h :: l) g = groupNames l g := by
  simp [groupNames, List.filterMap_cons, hg]

theorem groupNames_append (l₁ l₂ : List HostRecord) (g : String) :
    groupNames (l₁ ++ l₂) g = groupNames l₁ g ++ groupNames l₂ g :=
  List.filterMap_append l₁ l₂ _

/-- Full characterisation of the `distribute_hosts` loop: the final value
of each key, relative to the accumulator. -/
theorem distribute_aux_alookup (l : List HostRecord) :
    ∀ (acc d : List (String × List String)),
      distribute_hosts_aux acc l = some d → ∀ g : String,
      alookup d g =
        match alookup acc g with
        | some v => some (v ++ groupNames l g)
        | none =>
          if l.any (fun h => h.u_patching_group == some g) then
            some (groupNames l g)
          else none := by
  induction l with
  | nil =>
    intro acc d hd g
    simp only [distribute_hosts_aux, Option.some.injEq] at hd
    subst hd
    cases hacc : alookup acc g <;> simp [hacc, groupNames_nil]
  | cons h rest ih =>
    intro acc d hd g
    rcases hg0 : h.u_patching_group with _ | g0
    · simp only [distribute_hosts_aux, hg0] at hd
      exact Option.noConfusion hd
    · rcases hn0 : h.name with _ | n0
      · simp only [distribute_hosts_aux, hg0, hn0] at hd
        exact Option.noConfusion hd
      · simp only [distribute_hosts_aux, hg0, hn0] at hd
        have ihg := ih (addToGroup acc g0 n0) d hd g
        by_cases hgg : g = g0
        · subst hgg
          rw [alookup_addToGroup_self] at ihg
          rw [groupNames_cons_of_group h rest g n0 hg0 hn0]
          have hany : (h :: rest).any
              (fun r => r.u_patching_group == some g) = true := by
            simp [List.any_cons, hg0]
          rw [hany]
          cases hacc : alookup acc g with
          | none => rw [hacc] at ihg; simpa using ihg
          | some v => rw [hacc] at ihg; simpa using ihg
        · rw [alookup_addToGroup_ne acc g0 n0 g hgg] at ihg
          rw [groupNames_cons_of_ne h rest g (by simp [hg0, Ne.symm hgg])]
          have hany : ((h :: rest).any (fun r => r.u_patching_group == some g))
              = (rest.any (fun r => r.u_patching_group == some g)) := by
            simp [List.any_cons, hg0, Ne.symm hgg]
          rw [hany]
          exact ihg

/-- Top-level form: each key of the produced grouping holds exactly the
names, in input order, of the records carrying that group. -/
theorem distribute_alookup (l : List HostRecord)
    (d : List (String × List String)) (hd : distribute_hosts l = some d)
    (g : String) :
    alookup d g =
      if l.any (fun h => h.u_patching_group == some g) then
        some (groupNames l g)
      else none := by
  have := distribute_aux_alookup l [] d hd g
  simpa [alookup_nil] using this

/-! ### Totality of the pipeline and keys of the grouping -/

theorem distribute_aux_total (l : List HostRecord)
    (hl : ∀ r ∈ l, r.name.isSome = true ∧ r.u_patching_group.isSome = true) :
    ∀ acc : List (String × List String),
      ∃ d, distribute_hosts_aux acc l = some d := by
  induction l with
  | nil => intro acc; exact ⟨acc, rfl⟩
  | cons h rest ih =>
    intro acc
    obtain ⟨hn, hg⟩ := hl h (List.mem_cons_self h rest)
    obtain ⟨n, hn⟩ := Option.isSome_iff_exists.mp hn
    obtain ⟨g, hg⟩ := Option.isSome_iff_exists.mp hg
    obtain ⟨d, hd⟩ := ih (fun r hr => hl r (List.mem_cons_of_mem h hr))
      (addToGroup acc g n)
    exact ⟨d, by simp only [distribute_hosts_aux, hn, hg]; exact hd⟩

theorem pipeline_filter_fields (dns : String → Option String)
    (raw : List HostRecord) (r : HostRecord)
    (hr : r ∈ pipeline_filter dns raw) :
    r.name.isSome = true ∧ r.u_patching_group.isSome = true :=
  keep_host_isSome dns r (List.mem_filter.mp hr).2

/-- The filtering loop leaves a list that `distribute_hosts` always accepts:
the full pipeline never raises past the filter. -/
theorem main_inventory_isSome (dns : String → Option String)
    (raw : List HostRecord) : (main_inventory dns raw).isSome = true := by
  obtain ⟨d, hd⟩ := distribute_aux_total (pipeline_filter dns raw)
    (fun r hr => pipeline_filter_fields dns raw r hr) []
  simp [main_inventory, distribute_hosts, hd]

theorem addToGroup_keys (acc : List (String × List String)) (g : String)
    (n : String) (p : String × List String) (hp : p ∈ addToGroup acc g n) :
    p.1 ∈ acc.map Prod.fst ∨ p.1 = g := by
  induction acc with
  | nil =>
    simp only [addToGroup, List.mem_singleton] at hp
    subst hp
    exact Or.inr rfl
  | cons q rest ih =>
    obtain ⟨k, v⟩ := q
    by_cases hk : k = g
    · subst hk
      simp only [addToGroup, beq_self_eq_true, if_pos] at hp
      rcases List.mem_cons.mp hp with h | h
      · subst h; exact Or.inl (by simp)
      · exact Or.inl (by simp [List.mem_cons.mpr (Or.inr (List.mem_map_of_mem Prod.fst h))])
    · simp only [addToGroup, beq_iff_eq, if_neg hk] at hp
      rcases List.mem_cons.mp hp with h | h
      · subst h; exact Or.inl (by simp)
      · rcases ih h with h' | h'
        · exact Or.inl (by simp [h'])
        · exact Or.inr h'

theorem distribute_aux_keys (l : List HostRecord) :
    ∀ (acc d : List (String × List String)),
      distribute_hosts_aux acc l = some d →
      ∀ p ∈ d, p.1 ∈ acc.map Prod.fst ∨
        ∃ r ∈ l, r.u_patching_group = some p.1 := by
  induction l with
  | nil =>
    intro acc d hd p hp
    simp only [distribute_hosts_aux, Option.some.injEq] at hd
    subst hd
    exact Or.inl (List.mem_map_of_mem Prod.fst hp)
  | cons h rest ih =>
    intro acc d hd p hp
    rcases hg0 : h.u_patching_group with _ | g0
    · simp only [distribute_hosts_aux, hg0] at hd
      exact Option.noConfusion hd
    · rcases hn0 : h.name with _ | n0
      · simp only [distribute_hosts_aux, hg0, hn0] at hd
        exact Option.noConfusion hd
      · simp only [distribute_hosts_aux, hg0, hn0] at hd
        rcases ih (addToGroup acc g0 n0) d hd p hp with h' | h'
        · obtain ⟨q, hq, hq1⟩ := List.mem_map.mp h'
          rcases addToGroup_keys acc g0 n0 q hq with h'' | h''
          · exact Or.inl (hq1 ▸ h'')
          · exact Or.inr ⟨h, List.mem_cons_self h rest,
              by rw [hg0]; exact congrArg some (h''.symm.trans hq1)⟩
        · obtain ⟨r, hr, hrg⟩ := h'
          exact Or.inr ⟨r, List.mem_cons_of_mem h hr, hrg⟩

/-- Every key of the produced grouping is the verbatim group attribute of
some input record. -/
theorem distribute_keys (l : List HostRecord)
    (d : List (String × List String)) (hd : distribute_hosts l = some d)
    (p : String × List String) (hp : p ∈ d) :
    ∃ r ∈ l, r.u_patching_group = some p.1 := by
  rcases distribute_aux_keys l [] d hd p hp with h | h
  · simp at h
  · exact h

/-! ### The assembly loop -/

theorem build_foldl_no_all (d : List (String × List String)) :
    ∀ st : InvState, (∀ p ∈ d, p.1 ≠ "all") →
      d.foldl build_step st =
        { allHosts := st.allHosts ++ concatHosts d, entries := st.entries ++ d } := by
  induction d with
  | nil => intro st _; simp [concatHosts]
  | cons p rest ih =>
    intro st hall
    have hp : p.1 ≠ "all" := hall p (List.mem_cons_self p rest)
    have hpb : (p.1 == "all") = false := beq_eq_false_iff_ne.mpr hp
    rw [List.foldl_cons]
    rw [ih _ (fun q hq => hall q (List.mem_cons_of_mem p hq))]
    simp [build_step, hpb, concatHosts]

/-- On a distribution with no key literally `"all"`, the assembler prepends
the synthetic key holding the concatenation of all group lists, in group
iteration order, and keeps every group unchanged. -/
theorem build_no_all (d : List (String × List String))
    (h : ∀ p ∈ d, p.1 ≠ "all") :
    build_ansible_inventory d = ("all", concatHosts d) :: d := by
  simp [build_ansible_inventory, build_foldl_no_all d _ h]

/-- What the assembler actually does when a key literally `"all"` occurs in
the distribution: the entry of the synthetic key is replaced by that group's
own list object, which the self-`extend` doubles; the hosts of the groups
iterated before it are discarded from the synthetic list, those iterated
after it are appended; the `"all"` group adds no separate key. -/
theorem build_with_all (pre post : List (String × List String))
    (hs : List String) (hpre : ∀ p ∈ pre, p.1 ≠ "all")
    (hpost : ∀ p ∈ post, p.1 ≠ "all") :
    build_ansible_inventory (pre ++ ("all", hs) :: post)
      = ("all", hs ++ hs ++ concatHosts post) :: (pre ++ post) := by
  rw [build_ansible_inventory]
  rw [List.foldl_append, List.foldl_cons]
  rw [build_foldl_no_all pre _ hpre]
  have hstep : build_step
      { allHosts := [] ++ concatHosts pre, entries := [] ++ pre }
      ("all", hs) = { allHosts := hs ++ hs, entries := pre } := by
    simp [build_step]
  rw [hstep]
  rw [build_foldl_no_all post _ hpost]

/-! ### Counting occurrences inside a group -/

theorem groupNames_cons_of_noname (h : HostRecord) (l : List HostRecord)
    (g : String) (hn : h.name = none) :
    groupNames (h :: l) g = groupNames l g := by
  simp [groupNames, List.filterMap_cons, hn]

theorem count_groupNames (g : String) (s : String) (l : List HostRecord) :
    (groupNames l g).count s
      = (l.filter (fun h =>
          h.u_patching_group == some g && h.name == some s)).length := by
  induction l with
  | nil => simp [groupNames_nil]
  | cons h rest ih =>
    rcases hg0 : h.u_patching_group with _ | g0
    · rw [groupNames_cons_of_ne h rest g (by simp [hg0])]
      simp only [List.filter_cons, hg0]
      simpa using ih
    · by_cases hgg : g0 = g
      · subst hgg
        rcases hn0 : h.name with _ | n0
        · rw [groupNames_cons_of_noname h rest g0 hn0]
          simp only [List.filter_cons, hg0, hn0]
          have : ((some g0 == some g0) && ((none : Option String) == some s))
              = false := by simp
          rw [this]
          simpa using ih
        · rw [groupNames_cons_of_group h rest g0 n0 hg0 hn0]
          rcases eq_or_ne n0 s with hns | hns
          · subst hns
            simp [List.count_cons, List.filter_cons, hg0, hn0, ih]
          · simp [List.count_cons, List.filter_cons, hg0, hn0, hns, ih]
      · rw [groupNames_cons_of_ne h rest g (by simp [hg0, hgg])]
        simp only [List.filter_cons, hg0]
        have : ((some g0 == some g) && (h.name == some s)) = false := by
          simp [hgg]
        rw [this]
        simpa using ih

/-! ### Provenance of the host names in the document -/

theorem addToGroup_strings (P : String → Prop)
    (acc : List (String × List String)) (g : String) (n : String)
    (hacc : ∀ p ∈ acc, ∀ s ∈ p.2, P s) (hn : P n) :
    ∀ p ∈ addToGroup acc g n, ∀ s ∈ p.2, P s := by
  induction acc with
  | nil =>
    intro p hp s hs
    simp only [addToGroup, List.mem_singleton] at hp
    subst hp
    simp only [List.mem_singleton] at hs
    subst hs
    exact hn
  | cons q rest ih =>
    obtain ⟨k, v⟩ := q
    intro p hp s hs
    by_cases hk : k = g
    · subst hk
      simp only [addToGroup, beq_self_eq_true, if_pos] at hp
      rcases List.mem_cons.mp hp with h | h
      · subst h
        rcases List.mem_append.mp hs with h' | h'
        · exact hacc (k, v) (List.mem_cons_self _ _) s h'
        · simp only [List.mem_singleton] at h'
          subst h'
          exact hn
      · exact hacc p (List.mem_cons_of_mem _ h) s hs
    · simp only [addToGroup, beq_iff_eq, if_neg hk] at hp
      rcases List.mem_cons.mp hp with h | h
      · subst h
        exact hacc (k, v) (List.mem_cons_self _ _) s hs
      · exact ih (fun q hq => hacc q (List.mem_cons_of_mem _ hq)) p h s hs

theorem distribute_aux_strings (P : String → Prop) (l : List HostRecord) :
    ∀ (acc d : List (String × List String)),
      distribute_hosts_aux acc l = some d →
      (∀ p ∈ acc, ∀ s ∈ p.2, P s) →
      (∀ r ∈ l, ∀ nm : String, r.name = some nm → P nm) →
      ∀ p ∈ d, ∀ s ∈ p.2, P s := by
  induction l with
  | nil =>
    intro acc d hd hacc _
    simp only [distribute_hosts_aux, Option.some.injEq] at hd
    subst hd
    exact hacc
  | cons h rest ih =>
    intro acc d hd hacc hl
    rcases hg0 : h.u_patching_group with _ | g0
    · simp only [distribute_hosts_aux, hg0] at hd
      exact Option.noConfusion hd
    · rcases hn0 : h.name with _ | n0
      · simp only [distribute_hosts_aux, hg0, hn0] at hd
        exact Option.noConfusion hd
      · simp only [distribute_hosts_aux, hg0, hn0] at hd
        exact ih (addToGroup acc g0 n0) d hd
          (addToGroup_strings P acc g0 n0 hacc
            (hl h (List.mem_cons_self h rest) n0 hn0))
          (fun r hr => hl r (List.mem_cons_of_mem h hr))

theorem build_foldl_strings (P : String → Prop)
    (d : List (String × List String)) :
    ∀ st : InvState, (∀ s ∈ st.allHosts, P s) →
      (∀ p ∈ st.entries, ∀ s ∈ p.2, P s) →
      (∀ p ∈ d, ∀ s ∈ p.2, P s) →
      (∀ s ∈ (d.foldl build_step st).allHosts, P s) ∧
      (∀ p ∈ (d.foldl build_step st).entries, ∀ s ∈ p.2, P s) := by
  induction d with
  | nil => intro st h1 h2 _; exact ⟨h1, h2⟩
  | cons p rest ih =>
    intro st h1 h2 hd
    rw [List.foldl_cons]
    have hp : ∀ s ∈ p.2, P s := hd p (List.mem_cons_self p rest)
    have hrest : ∀ q ∈ rest, ∀ s ∈ q.2, P s :=
      fun q hq => hd q (List.mem_cons_of_mem p hq)
    by_cases hall : p.1 == "all"
    · refine ih _ ?_ ?_ hrest
      · intro s hs
        simp only [build_step, if_pos hall] at hs
        exact hp s (by rcases List.mem_append.mp hs with h | h <;> exact h)
      · intro q hq
        simp only [build_step, if_pos hall] at hq
        exact h2 q hq
    · refine ih _ ?_ ?_ hrest
      · intro s hs
        simp only [build_step, if_neg hall] at hs
        rcases List.mem_append.mp hs with h | h
        · exact h1 s h
        · exact hp s h
      · intro q hq
        simp only [build_step, if_neg hall] at hq
        rcases List.mem_append.mp hq with h | h
        · exact h2 q h
        · simp only [List.mem_singleton] at h
          subst h
          exact hp

/-- Every host name in every list of the final document (the synthetic
`"all"` list included) is a string stored in the distribution. -/
theorem build_strings (P : String → Prop) (d : List (String × List String))
    (hd : ∀ p ∈ d, ∀ s ∈ p.2, P s) :
    ∀ p ∈ build_ansible_inventory d, ∀ s ∈ p.2, P s := by
  intro p hp s hs
  have h := build_foldl_strings P d { allHosts := [], entries := [] }
    (by intro s hs; simp at hs) (by intro q hq; simp at hq) hd
  rcases List.mem_cons.mp hp with h' | h'
  · subst h'
    exact h.1 s hs
  · exact h.2 p h' s hs

/-! ### The document depends on the resolver only through validity -/

theorem keep_host_congr (dns dns' : String → Option String)
    (hagree : ∀ q, (dns q).isSome = (dns' q).isSome) (rec : HostRecord) :
    keep_host dns rec = keep_host dns' rec := by
  unfold keep_host
  rcases hname : rec.name with _ | h
  · rfl
  · rw [resolve_dns_some_valid, resolve_dns_some_valid, hagree]

theorem main_inventory_congr (dns dns' : String → Option String)
    (hagree : ∀ q, (dns q).isSome = (dns' q).isSome)
    (raw : List HostRecord) :
    main_inventory dns raw = main_inventory dns' raw := by
  unfold main_inventory pipeline_filter
  rw [List.filter_congr (fun rec _ => keep_host_congr dns dns' hagree rec)]

/-! ### Qualification only happens for names without a separator -/

theorem qualify_of_dot (h : String) (hd : py_contains_dot h = true) :
    qualify default_domain h = h := by
  simp [qualify, hd]

theorem qualify_of_no_dot (h : String) (hnd : py_contains_dot h = false) :
    qualify default_domain h = h ++ "." ++ default_domain ∧
    qualify default_domain h ≠ h := by
  constructor
  · simp [qualify, hnd]
  · simp only [qualify, hnd, Bool.false_eq_true, if_false]
    intro hcon
    have hlen := congrArg String.length hcon
    rw [String.length_append, String.length_append] at hlen
    have h1 : ("." : String).length = 1 := rfl
    have h2 : default_domain.length = 11 := rfl
    omega

/-! ### Claims -/

/-- Claim C3: the Record Filter ignores a record exactly when the
lower-cased name is in the hostname denylist, or the lower-cased group is
in the group denylist, or the group field is empty or absent; in
particular a record with a missing (or empty) group field is excluded
regardless of denylist membership. -/
theorem c3_record_filter_characterisation (host : HostRecord) :
    (ignore_host host = true ↔
      py_lower (host.name.getD "") ∈ IGNORE_HOSTS ∨
      py_lower (host.u_patching_group.getD "") ∈ IGNORE_GROUPS ∨
      host.u_patching_group = none ∨ host.u_patching_group = some "")
    ∧ ((host.u_patching_group = none ∨ host.u_patching_group = some "") →
        ignore_host host = true) := by
  have hempty : (py_lower (host.u_patching_group.getD "") = "") ↔
      (host.u_patching_group = none ∨ host.u_patching_group = some "") := by
    rw [py_lower_eq_empty]
    rcases hg : host.u_patching_group with _ | g <;> simp
  have hmain : ignore_host host = true ↔
      py_lower (host.name.getD "") ∈ IGNORE_HOSTS ∨
      py_lower (host.u_patching_group.getD "") ∈ IGNORE_GROUPS ∨
      host.u_patching_group = none ∨ host.u_patching_group = some "" := by
    rw [← hempty]
    simp [ignore_host, Bool.or_eq_true, or_assoc]
  exact ⟨hmain, fun h => hmain.mpr (Or.inr (Or.inr h))⟩

/-- Witness for C3 at a concrete record: a record with a missing group
field is ignored. -/
theorem c3_record_filter_characterisation_witness :
    ignore_host { name := some "web01", u_patching_group := none } = true :=
  (c3_record_filter_characterisation
    { name := some "web01", u_patching_group := none }).2 (Or.inl rfl)

/-- Claim C5: the resolver queries the name with the default domain suffix
appended exactly when the name has no separator; success gives
`valid=true` with the address and the qualified name, failure gives
`valid=false` with no address; an invalid record is dropped from the
filtered list while the pipeline always still produces a document. -/
theorem c5_resolver_behaviour (dns : String → Option String) (h : String)
    (raw : List HostRecord) :
    ((resolve_dns dns default_domain (some h)).hostname
      = some (qualify default_domain h))
    ∧ (py_contains_dot h = true → qualify default_domain h = h)
    ∧ (py_contains_dot h = false →
        qualify default_domain h = h ++ "." ++ default_domain ∧
        qualify default_domain h ≠ h)
    ∧ ((resolve_dns dns default_domain (some h)).valid
        = (dns (qualify default_domain h)).isSome)
    ∧ ((resolve_dns dns default_domain (some h)).ip
        = dns (qualify default_domain h))
    ∧ (main_inventory dns raw).isSome = true
    ∧ (∀ rec : HostRecord, rec ∈ pipeline_filter dns raw ↔
        rec ∈ raw ∧ ignore_host rec = false ∧
        (resolve_dns dns default_domain rec.name).valid = true) := by
  refine ⟨resolve_dns_some_hostname dns default_domain h,
    qualify_of_dot h, qualify_of_no_dot h,
    resolve_dns_some_valid dns default_domain h,
    resolve_dns_some_ip dns default_domain h,
    main_inventory_isSome dns raw, ?_⟩
  intro rec
  rw [pipeline_filter, List.mem_filter, keep_host]
  simp [Bool.and_eq_true, Bool.not_eq_true', and_assoc]

/-- Witness for C5 at a concrete name without a separator: the suffix is
appended and changes the name. -/
theorem c5_resolver_behaviour_witness :
    qualify default_domain "web01" = "web01" ++ "." ++ default_domain ∧
    qualify default_domain "web01" ≠ "web01" :=
  (c5_resolver_behaviour (fun _ => some "10.0.0.1") "web01" []).2.2.1
    (by decide)

/-- Claim C1 (counterexample): two eligible, resolvable records sharing a
hostname but carrying different groups put that hostname into two named
groups, and with a third record in a group literally called "all" the
synthetic list does not contain one occurrence per named-group occurrence
either (it contains none for `h1`). -/
theorem c1_counterexample :
    main_inventory (fun _ => some "10.0.0.1")
      [{ name := some "h1", u_patching_group := some "g1" },
       { name := some "h1", u_patching_group := some "g2" },
       { name := some "h2", u_patching_group := some "all" }]
      = some [("all", ["h2", "h2"]), ("g1", ["h1"]), ("g2", ["h1"])]
    ∧ namedGroupsContaining
        [("all", ["h2", "h2"]), ("g1", ["h1"]), ("g2", ["h1"])] "h1" = 2
    ∧ ((alookup [("all", ["h2", "h2"]), ("g1", ["h1"]), ("g2", ["h1"])]
        "all").getD []).count "h1" = 0 := by
  decide

/-- Claim C1 (amended): each surviving record contributes its hostname to
the named group given by its group attribute, so a hostname occurring with
two different groups appears in two named groups; provided no surviving
record's group is literally "all", the synthetic "all" list is the
concatenation of the named groups and every hostname occurs in it exactly
as often as it occurs across the named groups together. -/
theorem c1_occurrence_invariant (dns : String → Option String)
    (raw : List HostRecord)
    (hall : ∀ r ∈ pipeline_filter dns raw, r.u_patching_group ≠ some "all") :
    ∃ d, distribute_hosts (pipeline_filter dns raw) = some d ∧
      main_inventory dns raw = some (("all", concatHosts d) :: d) ∧
      ∀ s : String, (concatHosts d).count s
        = (d.map (fun p => p.2.count s)).sum := by
  obtain ⟨d, hd⟩ := distribute_aux_total (pipeline_filter dns raw)
    (fun r hr => pipeline_filter_fields dns raw r hr) []
  have hd' : distribute_hosts (pipeline_filter dns raw) = some d := hd
  have hkeys : ∀ p ∈ d, p.1 ≠ "all" := by
    intro p hp hcon
    obtain ⟨r, hr, hrg⟩ := distribute_keys _ d hd' p hp
    exact hall r hr (by rw [hrg, hcon])
  refine ⟨d, hd', ?_, ?_⟩
  · rw [main_inventory, hd']
    exact congrArg some (build_no_all d hkeys)
  · intro s
    simp only [concatHosts, List.count_flatten, List.map_map]
    rfl

/-- Witness for C1 (amended) at a concrete two-group run. -/
theorem c1_occurrence_invariant_witness :
    ∃ d, distribute_hosts (pipeline_filter (fun _ => some "10.0.0.1")
        [{ name := some "a", u_patching_group := some "g1" },
         { name := some "a", u_patching_group := some "g2" }]) = some d ∧
      main_inventory (fun _ => some "10.0.0.1")
        [{ name := some "a", u_patching_group := some "g1" },
         { name := some "a", u_patching_group := some "g2" }]
        = some (("all", concatHosts d) :: d) ∧
      ∀ s : String, (concatHosts d).count s
        = (d.map (fun p => p.2.count s)).sum :=
  c1_occurrence_invariant (fun _ => some "10.0.0.1")
    [{ name := some "a", u_patching_group := some "g1" },
     { name := some "a", u_patching_group := some "g2" }]
    (by decide)

/-- Claim C2 (counterexample): with distribution
`{"web": ["h1"], "all": ["h2"]}` the assembler does not merge the hosts of
the literal "all" group together with every other group's hosts: `h1` is
missing from the synthetic collection, and `h2` is doubled. -/
theorem c2_counterexample :
    build_ansible_inventory [("web", ["h1"]), ("all", ["h2"])]
      = [("all", ["h2", "h2"]), ("web", ["h1"])]
    ∧ "h1" ∉ ((alookup
        (build_ansible_inventory [("web", ["h1"]), ("all", ["h2"])])
        "all").getD []) := by
  decide

/-- Claim C2 (amended): a group literally named "all" is indeed not kept as
a separate key, but its hosts are not merged with the others: assigning it
overwrites the synthetic entry, so the hosts of groups iterated before it
are discarded, its own hosts appear twice (the list is extended with
itself), and the hosts of groups iterated after it are appended. -/
theorem c2_all_key_overwrites (pre post : List (String × List String))
    (hs : List String) (hpre : ∀ p ∈ pre, p.1 ≠ "all")
    (hpost : ∀ p ∈ post, p.1 ≠ "all")
    (_hkeys : ((pre ++ ("all", hs) :: post).map Prod.fst).Nodup) :
    build_ansible_inventory (pre ++ ("all", hs) :: post)
      = ("all", hs ++ hs ++ concatHosts post) :: (pre ++ post) :=
  build_with_all pre post hs hpre hpost

/-- Witness for C2 (amended) at a concrete distribution with the "all" key
in the middle. -/
theorem c2_all_key_overwrites_witness :
    build_ansible_inventory
        ([("web", ["h1"])] ++ ("all", ["h2"]) :: [("db", ["h3"])])
      = ("all", ["h2"] ++ ["h2"] ++ concatHosts [("db", ["h3"])])
        :: ([("web", ["h1"])] ++ [("db", ["h3"])]) :=
  c2_all_key_overwrites [("web", ["h1"])] [("db", ["h3"])] ["h2"]
    (by decide) (by decide) (by decide)

/-- Claim C4 (counterexample): a pipeline run in which one record's group
is literally "all" produces a document whose "all" list is not the
concatenation of the other groups' lists, and whose length differs from
the sum of their lengths. -/
theorem c4_counterexample :
    main_inventory (fun _ => some "10.0.0.2")
      [{ name := some "h1", u_patching_group := some "web" },
       { name := some "h2", u_patching_group := some "all" }]
      = some [("all", ["h2", "h2"]), ("web", ["h1"])]
    ∧ ¬ (((alookup [("all", ["h2", "h2"]), ("web", ["h1"])] "all").getD
          []).length
        = (([("all", ["h2", "h2"]), ("web", ["h1"])].filter
            (fun p => p.1 ≠ "all")).map (fun p => p.2.length)).sum) := by
  decide

/-- Claim C4 (amended): provided no group of the distribution is literally
named "all", the synthetic "all" list is the concatenation of every
group's host list in group-iteration order with duplicates preserved, and
its length is the sum of the host-list lengths of every other group of
the output. -/
theorem c4_all_is_concatenation (d : List (String × List String))
    (_hkeys : (d.map Prod.fst).Nodup) (hall : ∀ p ∈ d, p.1 ≠ "all") :
    build_ansible_inventory d = ("all", concatHosts d) :: d
    ∧ (concatHosts d).length = (d.map (fun p => p.2.length)).sum := by
  refine ⟨build_no_all d hall, ?_⟩
  simp only [concatHosts, List.length_flatten, List.map_map]
  rfl

/-- Witness for C4 (amended) at a concrete two-group distribution. -/
theorem c4_all_is_concatenation_witness :
    build_ansible_inventory [("web", ["h1"]), ("db", ["h2", "h3"])]
      = ("all", concatHosts [("web", ["h1"]), ("db", ["h2", "h3"])])
        :: [("web", ["h1"]), ("db", ["h2", "h3"])]
    ∧ (concatHosts [("web", ["h1"]), ("db", ["h2", "h3"])]).length
      = ([("web", ["h1"]), ("db", ["h2", "h3"])].map
          (fun p => p.2.length)).sum :=
  c4_all_is_concatenation [("web", ["h1"]), ("db", ["h2", "h3"])]
    (by decide) (by decide)

/-- Claim C6: grouping is a stable partition: when the filtered sequence
splits as `l1 ++ A :: l2 ++ B :: l3` with `A` and `B` both in group `g`,
the host list of `g` lists `A`'s name strictly before `B`'s name, with
exactly the other same-group names of each segment around them in input
order (the first record of a group creates it, later ones append). -/
theorem c6_stable_partition (dns : String → Option String)
    (raw : List HostRecord) (l1 l2 l3 : List HostRecord)
    (A B : HostRecord) (g nA nB : String)
    (hsplit : pipeline_filter dns raw = l1 ++ A :: (l2 ++ B :: l3))
    (hAg : A.u_patching_group = some g) (hBg : B.u_patching_group = some g)
    (hAn : A.name = some nA) (hBn : B.name = some nB) :
    ∃ d, distribute_hosts (pipeline_filter dns raw) = some d ∧
      alookup d g = some (groupNames l1 g
        ++ nA :: (groupNames l2 g ++ nB :: groupNames l3 g)) := by
  obtain ⟨d, hd⟩ := distribute_aux_total (pipeline_filter dns raw)
    (fun r hr => pipeline_filter_fields dns raw r hr) []
  have hd' : distribute_hosts (pipeline_filter dns raw) = some d := hd
  refine ⟨d, hd', ?_⟩
  have hany : (pipeline_filter dns raw).any
      (fun h => h.u_patching_group == some g) = true := by
    rw [hsplit]
    simp [List.any_append, List.any_cons, hAg]
  rw [distribute_alookup _ d hd' g, hany, if_pos rfl]
  rw [hsplit, groupNames_append,
    groupNames_cons_of_group A _ g nA hAg hAn, groupNames_append,
    groupNames_cons_of_group B _ g nB hBg hBn]

/-- Witness for C6: two records of the same group end up in input order. -/
theorem c6_stable_partition_witness :
    ∃ d, distribute_hosts (pipeline_filter (fun _ => some "10.0.0.1")
        [{ name := some "a", u_patching_group := some "g" },
         { name := some "b", u_patching_group := some "g" }]) = some d ∧
      alookup d "g" = some (groupNames [] "g"
        ++ "a" :: (groupNames [] "g" ++ "b" :: groupNames [] "g")) :=
  c6_stable_partition (fun _ => some "10.0.0.1")
    [{ name := some "a", u_patching_group := some "g" },
     { name := some "b", u_patching_group := some "g" }]
    [] [] []
    { name := some "a", u_patching_group := some "g" }
    { name := some "b", u_patching_group := some "g" }
    "g" "a" "b" (by decide) rfl rfl rfl rfl

/-- Claim C7: no deduplication and verbatim keys: for every group string
`g` (compared verbatim, with no case normalisation) the number of
occurrences of a hostname `s` in `g`'s host list equals the number of
surviving records whose group attribute is exactly `g` and whose name is
exactly `s` — duplicate records therefore appear as duplicate entries. -/
theorem c7_no_dedup_verbatim_keys (dns : String → Option String)
    (raw : List HostRecord) (d : List (String × List String))
    (hd : distribute_hosts (pipeline_filter dns raw) = some d)
    (g s : String) :
    ((alookup d g).getD []).count s
      = ((pipeline_filter dns raw).filter (fun h =>
          h.u_patching_group == some g && h.name == some s)).length := by
  rw [distribute_alookup _ d hd g]
  by_cases hany : (pipeline_filter dns raw).any
      (fun h => h.u_patching_group == some g) = true
  · rw [hany, if_pos rfl]
    exact count_groupNames g s (pipeline_filter dns raw)
  · rw [Bool.not_eq_true] at hany
    rw [hany]
    simp only [Bool.false_eq_true, if_false, Option.getD_none, List.count_nil]
    have hnone : ∀ r ∈ pipeline_filter dns raw,
        ¬ ((r.u_patching_group == some g && r.name == some s) = true) := by
      intro r hr hcon
      have := List.any_eq_false.mp hany r hr
      simp only [Bool.and_eq_true] at hcon
      exact this (by rw [hcon.1])
    rw [List.filter_eq_nil_iff.mpr hnone]
    rfl

/-- Witness for C7: a duplicated record yields a count of two. -/
theorem c7_no_dedup_verbatim_keys_witness :
    ((alookup [("g", ["a", "a"])] "g").getD []).count "a"
      = ((pipeline_filter (fun _ => some "10.0.0.1")
          [{ name := some "a", u_patching_group := some "g" },
           { name := some "a", u_patching_group := some "g" }]).filter
          (fun h => h.u_patching_group == some "g"
            && h.name == some "a")).length :=
  c7_no_dedup_verbatim_keys (fun _ => some "10.0.0.1")
    [{ name := some "a", u_patching_group := some "g" },
     { name := some "a", u_patching_group := some "g" }]
    [("g", ["a", "a"])] (by decide) "g" "a"

/-- Claim C8: a failed retrieval aborts with exit status 1 and no document
on the primary stream; a successful retrieval always runs the full
pipeline and emits exactly one document, with exit status 0. -/
theorem c8_retrieval_failure_fatal (dns : String → Option String)
    (raw : List HostRecord) :
    main_run none dns = (1, none)
    ∧ ∃ inv, main_run (some raw) dns = (0, some inv) := by
  refine ⟨rfl, ?_⟩
  obtain ⟨inv, hinv⟩ :=
    Option.isSome_iff_exists.mp (main_inventory_isSome dns raw)
  exact ⟨inv, by simp [main_run, hinv]⟩

/-- Claim C9: every hostname in the document is the verbatim `name` of some
retrieved record, and the document is unchanged under any resolver oracle
with the same validity verdicts — the resolved address and the qualified
hostname never reach the document. -/
theorem c9_output_uses_original_names (dns dns' : String → Option String)
    (raw : List HostRecord) (inv : List (String × List String))
    (hagree : ∀ q, (dns q).isSome = (dns' q).isSome)
    (hinv : main_inventory dns raw = some inv) :
    (∀ p ∈ inv, ∀ s ∈ p.2, ∃ rec ∈ raw, rec.name = some s)
    ∧ main_inventory dns' raw = some inv := by
  constructor
  · rcases hmap : distribute_hosts (pipeline_filter dns raw) with _ | d
    · rw [main_inventory, hmap] at hinv
      exact Option.noConfusion hinv
    · rw [main_inventory, hmap] at hinv
      have hbuild : build_ansible_inventory d = inv := by
        simpa using hinv
      have hgroups : ∀ p ∈ d, ∀ s ∈ p.2,
          ∃ rec ∈ raw, rec.name = some s := by
        refine distribute_aux_strings _ (pipeline_filter dns raw) [] d hmap
          (by intro p hp; simp at hp) ?_
        intro r hr nm hnm
        exact ⟨r, List.mem_of_mem_filter hr, hnm⟩
      rw [← hbuild]
      exact build_strings _ d hgroups
  · rw [← main_inventory_congr dns dns' hagree raw]
    exact hinv

/-- Witness for C9 at a one-record run. -/
theorem c9_output_uses_original_names_witness :
    (∀ p ∈ [("all", ["a"]), ("g", ["a"])], ∀ s ∈ p.2,
      ∃ rec ∈ [{ name := some "a", u_patching_group := some "g" }],
        HostRecord.name rec = some s)
    ∧ main_inventory (fun _ => some "10.0.0.1")
        [{ name := some "a", u_patching_group := some "g" }]
        = some [("all", ["a"]), ("g", ["a"])] :=
  c9_output_uses_original_names (fun _ => some "10.0.0.1")
    (fun _ => some "10.0.0.1")
    [{ name := some "a", u_patching_group := some "g" }]
    [("all", ["a"]), ("g", ["a"])] (fun q => rfl) (by decide)

/-- Claim C10: the resolver is total in the embedding: a missing (`None`)
hostname yields the failure record rather than an escaping exception, any
failure carries no address, and every record kept by the pipeline passed
resolution — failing records are dropped, never fatal. -/
theorem c10_resolver_total (dns : String → Option String) (domain : String)
    (hn : Option String) (raw : List HostRecord) :
    resolve_dns dns domain none
      = { hostname := none, ip := none, valid := false }
    ∧ ((resolve_dns dns domain hn).valid = false →
        (resolve_dns dns domain hn).ip = none)
    ∧ (∀ rec ∈ pipeline_filter dns raw,
        (resolve_dns dns default_domain rec.name).valid = true) := by
  refine ⟨rfl, ?_, ?_⟩
  · intro hv
    rcases hname : hn with _ | h
    · rfl
    · rw [hname] at hv
      rw [resolve_dns_some_valid] at hv
      rw [resolve_dns_some_ip]
      exact Option.not_isSome_iff_eq_none.mp (by rw [hv]; exact Bool.false_ne_true)
  · intro rec hrec
    have hk := (List.mem_filter.mp hrec).2
    rw [keep_host, Bool.and_eq_true] at hk
    exact hk.2

/-- Witness for C10: a failing oracle yields no address. -/
theorem c10_resolver_total_witness :
    (resolve_dns (fun _ => none) default_domain (some "db01")).ip = none :=
  (c10_resolver_total (fun _ => none) default_domain (some "db01") []).2.1
    (by decide)
